import Mathlib

/-!
Shallow embedding of the prime validation core of the UFRF repository
(`PrimeGeometricPredictor/enhanced_prime_validator.py` and
`PrimeGeometricPredictor/prime_classification_system.py`).

Python integers are modelled as `Nat` (the code only handles nonnegative
limits and candidates), Python sets as `Finset`, numpy boolean arrays as
their indicator functions, the on-disk checkpoint directory as an
association list keyed by the validation limit, and floating-point metric
arithmetic as exact rationals.
-/

namespace UFRF

/-- Confusion counters plus the capped mismatch sample lists carried
through a validation scan: `true_positives`, `false_positives`,
`false_negatives` and the two misclassified-number lists of
`validate_primality_test_batch` / `validate_primality_test`. -/
structure ScanState where
  true_positives : Nat
  false_positives : Nat
  false_negatives : Nat
  false_positive_numbers : List Nat
  false_negative_numbers : List Nat
  deriving Repr, DecidableEq

/-- The zero-initialized counters at the start of a scan. -/
def ScanState.zero : ScanState := ⟨0, 0, 0, [], []⟩

/-- One iteration of the per-number comparison loop shared by
`validate_primality_test_batch` and `validate_primality_test`: even
`n > 2` is skipped; otherwise the classifier verdict is compared with
membership in the known-prime set and the counters and capped sample
lists are updated. `cap` is 100 in the batch worker and 1000 in the
sequential scan. -/
def scanStep (cap : Nat) (classify : Nat → Bool) (truth : Finset Nat)
    (st : ScanState) (n : Nat) : ScanState :=
  if 2 < n ∧ n % 2 = 0 then st
  else
    let ip := classify n
    let ik := decide (n ∈ truth)
    if ip && ik then
      { st with true_positives := st.true_positives + 1 }
    else if ip && !ik then
      { st with
        false_positives := st.false_positives + 1
        false_positive_numbers :=
          if st.false_positive_numbers.length < cap then
            st.false_positive_numbers ++ [n]
          else st.false_positive_numbers }
    else if !ip && ik then
      { st with
        false_negatives := st.false_negatives + 1
        false_negative_numbers :=
          if st.false_negative_numbers.length < cap then
            st.false_negative_numbers ++ [n]
          else st.false_negative_numbers }
    else st

/-- `validate_primality_test_batch(start, end, known_primes)`: scan the
inclusive range `range(start, end + 1)` from zero counters with
per-batch sample cap 100. (`stop` stands for the source's `end`, a
reserved word here.) -/
def validate_primality_test_batch (classify : Nat → Bool) (truth : Finset Nat)
    (start stop : Nat) : ScanState :=
  (List.range' start (stop + 1 - start) 1).foldl
    (scanStep 100 classify truth) ScanState.zero

/-- The batch start points `range(first, limit + 1, batch_size)` used by
both the sequential scan and the distributed coordinator; the length of
that Python range is `⌈(limit + 1 - first) / batch_size⌉`. -/
def batchStarts (first limit bs : Nat) : List Nat :=
  List.range' first ((limit + 1 - first + (bs - 1)) / bs) bs

/-- The checkpoint record pickled by `save_checkpoint`. -/
structure CheckpointData where
  last_processed : Nat
  true_positives : Nat
  false_positives : Nat
  false_negatives : Nat
  timestamp : String
  deriving Repr, DecidableEq

/-- The checkpoint directory: `checkpoint_{limit}.pkl` files keyed by the
validation limit. Writing a file replaces the previous content for the
same limit, which the association list realizes by shadowing. -/
abbrev CheckpointStore := List (Nat × CheckpointData)

/-- `save_checkpoint(checkpoint_data, limit)`: write (overwrite) the
record for `limit`. -/
def save_checkpoint (store : CheckpointStore) (cd : CheckpointData)
    (limit : Nat) : CheckpointStore :=
  (limit, cd) :: store

/-- `load_checkpoint(limit)`: return the current record for `limit`, or
`none` when no checkpoint file exists. -/
def load_checkpoint (store : CheckpointStore) (limit : Nat) :
    Option CheckpointData :=
  (store.find? (fun e => e.1 == limit)).map (fun e => e.2)

/-- The results record compiled at the end of `validate_primality_test`
and `validate_primality_test_distributed`; float arithmetic is modelled
as exact rationals. The field `recall'` stands for the source's
`recall`, a reserved word here. -/
structure ValidationResult where
  limit : Nat
  total_known_primes : Nat
  true_positives : Nat
  false_positives : Nat
  false_negatives : Nat
  precision : ℚ
  recall' : ℚ
  f1_score : ℚ
  accuracy : ℚ
  false_positive_numbers : List Nat
  false_negative_numbers : List Nat
  deriving Repr, DecidableEq

/-- Metric derivation and result assembly shared verbatim by the
sequential and distributed paths (source lines 388-408 and 502-522). -/
def mkResult (limit : Nat) (truth : Finset Nat) (st : ScanState) :
    ValidationResult :=
  let tp := st.true_positives
  let fp := st.false_positives
  let fneg := st.false_negatives
  let total := (truth.filter (fun p => p ≤ limit)).card
  let precision : ℚ := if tp + fp > 0 then (tp : ℚ) / ((tp : ℚ) + (fp : ℚ)) else 0
  let recall' : ℚ := if tp + fneg > 0 then (tp : ℚ) / ((tp : ℚ) + (fneg : ℚ)) else 0
  let f1 : ℚ := if precision + recall' > 0 then
    2 * precision * recall' / (precision + recall') else 0
  let accuracy : ℚ := if total > 0 then (tp : ℚ) / (total : ℚ) else 0
  ⟨limit, total, tp, fp, fneg, precision, recall', f1, accuracy,
    st.false_positive_numbers, st.false_negative_numbers⟩

/-- Combination of the per-batch mismatch samples in the distributed
path: 100 per batch are appended, truncated at 1000 overall (source
lines 374-386). -/
def combineSamples (ls : List (List Nat)) : List Nat :=
  ls.foldl (fun acc l =>
    let acc' := acc ++ l.take 100
    if 1000 ≤ acc'.length then acc'.take 1000 else acc') []

/-- `validate_primality_test_distributed(limit, known_primes, batch_size,
num_processes)`: split `[2, limit]` into batches of `batch_size` (last
batch truncated at `limit`), run `validate_primality_test_batch` on
each, sum the counters and combine the samples. `num_processes` only
sizes the worker pool; `pool.starmap` returns the batch results in batch
order, so the outcome does not depend on it. -/
def validate_primality_test_distributed (classify : Nat → Bool)
    (truth : Finset Nat) (limit bs num_processes : Nat) : ValidationResult :=
  let batches := (batchStarts 2 limit bs).map (fun a => (a, min (a + bs - 1) limit))
  let results := batches.map (fun ab =>
    validate_primality_test_batch classify truth ab.1 ab.2)
  let st : ScanState :=
    { true_positives := (results.map (fun r => r.true_positives)).sum
      false_positives := (results.map (fun r => r.false_positives)).sum
      false_negatives := (results.map (fun r => r.false_negatives)).sum
      false_positive_numbers :=
        combineSamples (results.map (fun r => r.false_positive_numbers))
      false_negative_numbers :=
        combineSamples (results.map (fun r => r.false_negative_numbers)) }
  mkResult limit truth st

/-- The non-distributed path of `validate_primality_test(limit,
known_primes, use_checkpoint, batch_size)`. `ckpt` is the record
returned by `load_checkpoint` when `use_checkpoint` is set (`none` when
checkpointing is off or no checkpoint file exists): the scan starts at
`last_processed + 1` with counters seeded from the checkpoint, or at 2
from zero, and proceeds over the batches `range(start, limit + 1,
batch_size)`; the mismatch sample lists always start empty. -/
def validate_primality_test (classify : Nat → Bool) (truth : Finset Nat)
    (limit bs : Nat) (ckpt : Option CheckpointData) : ValidationResult :=
  let first := match ckpt with
    | some cd => cd.last_processed + 1
    | none => 2
  let st0 : ScanState := match ckpt with
    | some cd => ⟨cd.true_positives, cd.false_positives, cd.false_negatives, [], []⟩
    | none => ScanState.zero
  let final := (batchStarts first limit bs).foldl
    (fun st a =>
      (List.range' a (min (a + bs - 1) limit + 1 - a) 1).foldl
        (scanStep 1000 classify truth) st) st0
  mkResult limit truth final

/-- One numpy slice assignment `sieve[i*i::i] = False` of the standard
sieve: cells `n` with `i*i ≤ n ≤ limit` and `i ∣ n` are cleared (the
array has `limit + 1` cells; the boolean array is modelled as its
indicator function). -/
def markMultiples (limit i : Nat) (f : Nat → Bool) : Nat → Bool :=
  fun n => if i * i ≤ n ∧ n ≤ limit ∧ i ∣ n then false else f n

/-- The marking loop `for i in range(2, isqrt(limit) + 1)` of
`generate_known_primes_standard`, driven by the remaining iteration
count. -/
def sieveLoop (limit : Nat) : (Nat → Bool) → Nat → Nat → (Nat → Bool)
  | f, _, 0 => f
  | f, i, steps + 1 =>
    sieveLoop limit (if f i then markMultiples limit i f else f) (i + 1) steps

/-- `generate_known_primes_standard(limit)` as the indicator function of
the returned set: `np.ones(limit + 1)` with cells 0 and 1 cleared, the
marking loop over `range(2, int(np.sqrt(limit)) + 1)`, then `np.where`
keeps exactly the still-set indices `n ≤ limit`. `int(np.sqrt(limit))`
is modelled as `Nat.sqrt limit`. -/
def generate_known_primes_standard (limit : Nat) : Nat → Bool :=
  fun n =>
    decide (n ≤ limit) &&
      sieveLoop limit (fun m => decide (2 ≤ m)) 2 (Nat.sqrt limit + 1 - 2) n

/-- One slice assignment `sieve[start_idx::p] = 0` of the bit sieve,
where `p = 2*i + 1` and `start_idx = (p*p - 1) // 2`; cell `j` of the
array stands for the odd number `2*j + 1` and the array has
`(limit - 1) // 2 + 1` cells. -/
def bitMark (ssize i : Nat) (g : Nat → Bool) : Nat → Bool :=
  fun j =>
    if ((2 * i + 1) * (2 * i + 1) - 1) / 2 ≤ j ∧ j ≤ ssize ∧
        (j - ((2 * i + 1) * (2 * i + 1) - 1) / 2) % (2 * i + 1) = 0 then false
    else g j

/-- The marking loop `for i in range(1, isqrt(limit) // 2 + 1)` of
`generate_known_primes_bit_sieve`. -/
def bitLoop (ssize : Nat) : (Nat → Bool) → Nat → Nat → (Nat → Bool)
  | g, _, 0 => g
  | g, i, steps + 1 =>
    bitLoop ssize (if g i then bitMark ssize i g else g) (i + 1) steps

/-- `generate_known_primes_bit_sieve(limit)` as an indicator function:
the result is `{2}` (seeded unconditionally by the source) together with
the odd numbers `2*j + 1` for array indices `1 ≤ j ≤ (limit - 1) // 2`
still set after the marking loop. For `limit = 0` Python's
`(limit - 1) // 2` is `-1` and the array is empty; with `Nat`
subtraction it is `0`, which yields the same set because index `0` is
excluded either way. -/
def generate_known_primes_bit_sieve (limit : Nat) : Nat → Bool :=
  fun n =>
    n == 2 ||
      (n % 2 == 1 && decide (1 ≤ (n - 1) / 2) &&
        decide ((n - 1) / 2 ≤ (limit - 1) / 2) &&
        bitLoop ((limit - 1) / 2) (fun _ => true) 1 (Nat.sqrt limit / 2)
          ((n - 1) / 2))

/-- First multiple of `p` at or after segment start `a`:
`(segment_start + p - 1) // p * p` (the subsequent
`if start_idx < segment_start` adjustment in the source never fires). -/
def segStartIdx (a p : Nat) : Nat := (a + p - 1) / p * p

/-- Whether cell `n` of the segment starting at `a` is cleared by the
base-prime marking loop of `generate_known_primes_segmented`: some base
prime `p` (member of `generate_known_primes_standard (isqrt limit)`) has
a multiple chain `start_idx, start_idx + p, …` hitting `n`. Base primes
are at most `isqrt limit`, so the set iteration is modelled as a bounded
search. -/
def segMarked (limit a n : Nat) : Bool :=
  (List.range (Nat.sqrt limit + 1)).any (fun p =>
    generate_known_primes_standard (Nat.sqrt limit) p &&
      decide (segStartIdx a p ≤ n) &&
      decide ((n - segStartIdx a p) % p = 0))

/-- `generate_known_primes_segmented(limit, segment_size)` as an
indicator function: the base primes up to `isqrt limit` from the
standard sieve, plus, for each window `[a, min(a + segment_size - 1,
limit)]` with `a` in `range(isqrt(limit) + 1, limit + 1, segment_size)`,
the unmarked cells of that window. -/
def generate_known_primes_segmented (limit seg : Nat) : Nat → Bool :=
  fun n =>
    generate_known_primes_standard (Nat.sqrt limit) n ||
      (List.range' (Nat.sqrt limit + 1)
          ((limit + 1 - (Nat.sqrt limit + 1) + (seg - 1)) / seg) seg).any
        (fun a =>
          decide (a ≤ n) && decide (n ≤ min (a + seg - 1) limit) &&
            !(segMarked limit a n))

/-- The trial divisors `range(3, isqrt(n) + 1, 2)` of
`PrimeClassifier.is_prime`; that Python range has `(isqrt(n) - 1) // 2`
elements. -/
def trialDivisors (n : Nat) : List Nat :=
  List.range' 3 ((Nat.sqrt n - 1) / 2) 2

/-- `PrimeClassifier.is_prime` on a cache miss: the special cases for
`n < 2`, `n ∈ {2, 3}` and even `n`, then trial division by the odd
numbers `3, 5, …, isqrt(n)`. -/
def is_prime (n : Nat) : Bool :=
  if n < 2 then false
  else if n == 2 || n == 3 then true
  else if n % 2 == 0 then false
  else (trialDivisors n).all (fun i => n % i != 0)

/-- `PrimeClassifier.is_prime` with the memoization dictionary
`prime_cache` made explicit: on a hit the cached value is returned, on a
miss the trial-division result is computed and recorded. -/
def is_prime_cached (cache : List (Nat × Bool)) (n : Nat) :
    Bool × List (Nat × Bool) :=
  match cache.find? (fun e => e.1 == n) with
  | some e => (e.2, cache)
  | none => (is_prime n, (n, is_prime n) :: cache)

/-- Every entry of `prime_cache` agrees with the uncached computation;
this holds for the empty initial cache and is preserved by every call. -/
def CacheConsistent (cache : List (Nat × Bool)) : Prop :=
  ∀ e ∈ cache, e.2 = is_prime e.1

/-- Python `int(line.strip())`: strip surrounding whitespace, then an
optional sign (codepoint 45 minus, 43 plus) followed by at least one
decimal digit; `none` models the `ValueError` branch. -/
def parseIntLine (s : String) : Option Int :=
  let t := ((s.toList.dropWhile Char.isWhitespace).reverse.dropWhile
    Char.isWhitespace).reverse
  let signed : Bool × List Char :=
    match t with
    | c :: rest =>
      if c.toNat = 45 then (true, rest)
      else if c.toNat = 43 then (false, rest)
      else (false, t)
    | [] => (false, [])
  if signed.2 ≠ [] && signed.2.all Char.isDigit then
    let v : Nat := signed.2.foldl (fun a c => a * 10 + (c.toNat - 48)) 0
    some (if signed.1 then -(v : Int) else (v : Int))
  else none

/-- `load_known_primes_from_file` (identical in
`enhanced_prime_validator.py` and `prime_validator.py`): `none` models a
missing file (the `FileNotFoundError` branch returns an empty set);
otherwise each line is parsed with `int(...)` and lines raising
`ValueError` are skipped. -/
def load_known_primes_from_file (file : Option (List String)) : Finset Int :=
  match file with
  | none => ∅
  | some lines =>
    lines.foldl (fun acc line =>
      match parseIntLine line with
      | some p => insert p acc
      | none => acc) ∅

/-! ### Correctness of the standard sieve -/

/-- Cell `n` has been cleared by the marking loop once some prime
`p < i` with `p * p ≤ n` divides `n`. -/
def markedBy (i n : Nat) : Prop :=
  ∃ p, Nat.Prime p ∧ p < i ∧ p ∣ n ∧ p * p ≤ n

/-- Invariant of the standard marking loop on entry to iteration `i`. -/
def SieveInv (limit i : Nat) (f : Nat → Bool) : Prop :=
  ∀ n, n ≤ limit → (f n = true ↔ 2 ≤ n ∧ ¬ markedBy i n)

theorem sieveInv_init (limit : Nat) :
    SieveInv limit 2 (fun m => decide (2 ≤ m)) := by
  intro n _
  simp only [decide_eq_true_iff]
  constructor
  · intro h2
    refine ⟨h2, ?_⟩
    rintro ⟨p, hp, hlt, -, -⟩
    exact absurd hp.two_le (by omega)
  · exact fun h => h.1

theorem markedBy_succ (i n : Nat) :
    markedBy (i + 1) n ↔ markedBy i n ∨ (Nat.Prime i ∧ i ∣ n ∧ i * i ≤ n) := by
  constructor
  · rintro ⟨p, hp, hlt, hdvd, hsq⟩
    rcases Nat.lt_succ_iff_lt_or_eq.mp hlt with h | rfl
    · exact Or.inl ⟨p, hp, h, hdvd, hsq⟩
    · exact Or.inr ⟨hp, hdvd, hsq⟩
  · rintro (⟨p, hp, hlt, hdvd, hsq⟩ | ⟨hp, hdvd, hsq⟩)
    · exact ⟨p, hp, by omega, hdvd, hsq⟩
    · exact ⟨i, hp, by omega, hdvd, hsq⟩

/-- A cell that is still set when the loop reaches it holds a prime
index. -/
theorem prime_of_unmarked {i : Nat} (h2 : 2 ≤ i) (h : ¬ markedBy i i) :
    Nat.Prime i := by
  by_contra hnp
  have hsq : i.minFac ^ 2 ≤ i := Nat.minFac_sq_le_self (by omega) hnp
  have hp : i.minFac.Prime := Nat.minFac_prime (by omega)
  have hdvd : i.minFac ∣ i := Nat.minFac_dvd i
  have h2p : 2 ≤ i.minFac := hp.two_le
  have hlt : i.minFac < i := by
    have : i.minFac < i.minFac * i.minFac :=
      lt_of_lt_of_le (by omega) (Nat.mul_le_mul_right _ h2p)
    calc i.minFac < i.minFac * i.minFac := this
      _ ≤ i := by rwa [← Nat.pow_two]
  exact h ⟨i.minFac, hp, hlt, hdvd, by rwa [← Nat.pow_two]⟩

/-- A cell that is cleared holds a composite index. -/
theorem not_prime_of_marked {i : Nat} (h : markedBy i i) : ¬ Nat.Prime i := by
  rintro hp
  obtain ⟨p, hpp, hlt, hdvd, -⟩ := h
  rcases (Nat.Prime.eq_one_or_self_of_dvd hp p hdvd) with h1 | h1
  · exact absurd hpp.two_le (by omega)
  · omega

theorem sieveLoop_inv (limit : Nat) :
    ∀ steps i f, SieveInv limit i f → 2 ≤ i →
      (∀ j, i ≤ j → j < i + steps → j ≤ limit) →
      SieveInv limit (i + steps) (sieveLoop limit f i steps) := by
  intro steps
  induction steps with
  | zero => intro i f hInv _ _; simpa using hInv
  | succ s ih =>
    intro i f hInv h2 hbound
    have hi_le : i ≤ limit := hbound i le_rfl (by omega)
    have hgoal : SieveInv limit ((i + 1) + s)
        (sieveLoop limit (if f i then markMultiples limit i f else f) (i + 1) s) := by
      refine ih (i + 1) _ ?_ (by omega) (fun j hj hj' => hbound j (by omega) (by omega))
      by_cases hfi : f i = true
      · rw [if_pos hfi]
        have hiprime : Nat.Prime i :=
          prime_of_unmarked h2 (((hInv i hi_le).mp hfi).2)
        intro n hn
        unfold markMultiples
        split
        · next hc =>
          simp only [Bool.false_eq_true, false_iff]
          rintro ⟨-, hnm⟩
          exact hnm ((markedBy_succ i n).mpr (Or.inr ⟨hiprime, hc.2.2, hc.1⟩))
        · next hc =>
          rw [hInv n hn, markedBy_succ]
          constructor
          · rintro ⟨ha, hb⟩
            refine ⟨ha, ?_⟩
            rintro (h | ⟨-, hdvd, hsq⟩)
            · exact hb h
            · exact hc ⟨hsq, hn, hdvd⟩
          · rintro ⟨ha, hb⟩
            exact ⟨ha, fun h => hb (Or.inl h)⟩
      · rw [if_neg hfi]
        have hmarked : markedBy i i := by
          by_contra hnm
          exact hfi ((hInv i hi_le).mpr ⟨h2, hnm⟩)
        have hnp : ¬ Nat.Prime i := not_prime_of_marked hmarked
        intro n hn
        rw [hInv n hn, markedBy_succ]
        constructor
        · rintro ⟨ha, hb⟩
          exact ⟨ha, by rintro (h | ⟨hip, -, -⟩); exacts [hb h, hnp hip]⟩
        · rintro ⟨ha, hb⟩
          exact ⟨ha, fun h => hb (Or.inl h)⟩
    have harith : (i + 1) + s = i + (s + 1) := by omega
    rw [harith] at hgoal
    exact fun n hn => by
      rw [show sieveLoop limit f i (s + 1) =
        sieveLoop limit (if f i then markMultiples limit i f else f) (i + 1) s from rfl]
      exact hgoal n hn

/-- Membership characterization of `generate_known_primes_standard`: the
returned set is exactly the primes up to `limit`. -/
theorem generate_known_primes_standard_iff (limit n : Nat) :
    generate_known_primes_standard limit n = true ↔ n ≤ limit ∧ Nat.Prime n := by
  unfold generate_known_primes_standard
  rw [Bool.and_eq_true, decide_eq_true_eq]
  have hbound : ∀ j, 2 ≤ j → j < 2 + (Nat.sqrt limit + 1 - 2) → j ≤ limit := by
    intro j hj hj'
    have hs := Nat.sqrt_le_self limit
    omega
  have hInv := sieveLoop_inv limit (Nat.sqrt limit + 1 - 2) 2 _
    (sieveInv_init limit) le_rfl hbound
  constructor
  · rintro ⟨hle, hmem⟩
    have h := (hInv n hle).mp hmem
    refine ⟨hle, ?_⟩
    by_contra hnp
    have hsq : n.minFac ^ 2 ≤ n := Nat.minFac_sq_le_self (by omega) hnp
    have hp : n.minFac.Prime := Nat.minFac_prime (by omega)
    have hsl : n.minFac ≤ Nat.sqrt limit := by
      apply Nat.le_sqrt.mpr
      calc n.minFac * n.minFac = n.minFac ^ 2 := by rw [Nat.pow_two]
        _ ≤ n := hsq
        _ ≤ limit := hle
    have h2p : 2 ≤ n.minFac := hp.two_le
    exact h.2 ⟨n.minFac, hp, by omega, Nat.minFac_dvd n,
      by rw [← Nat.pow_two]; exact hsq⟩
  · rintro ⟨hle, hp⟩
    refine ⟨hle, (hInv n hle).mpr ⟨hp.two_le, ?_⟩⟩
    rintro ⟨p, hpp, -, hdvd, hsq⟩
    rcases Nat.Prime.eq_one_or_self_of_dvd hp p hdvd with h1 | h1
    · exact absurd hpp.two_le (by omega)
    · subst h1
      have h2 : 2 ≤ p := hpp.two_le
      have : p < p * p := lt_of_lt_of_le (by omega) (Nat.mul_le_mul_right _ h2)
      omega

/-! ### Correctness of the bit-packed sieve -/

/-- Cell `j` of the odd-only array has been cleared once some prime
`2*k + 1` with `k < i` divides `2*j + 1` and squares below it. -/
def oddMarkedBy (i j : Nat) : Prop :=
  ∃ k, k < i ∧ Nat.Prime (2 * k + 1) ∧ (2 * k + 1) ∣ (2 * j + 1) ∧
    (2 * k + 1) * (2 * k + 1) ≤ 2 * j + 1

/-- Invariant of the bit-sieve marking loop on entry to iteration `i`. -/
def BitInv (ssize i : Nat) (g : Nat → Bool) : Prop :=
  ∀ j, j ≤ ssize → (g j = true ↔ ¬ oddMarkedBy i j)

/-- The slice `sieve[start_idx::p] = 0` with `p = 2*i + 1` and
`start_idx = (p*p - 1) // 2` hits cell `j` exactly when `p` divides
`2*j + 1` and `p*p ≤ 2*j + 1`. -/
theorem bitMark_cond (i j : Nat) :
    (((2 * i + 1) * (2 * i + 1) - 1) / 2 ≤ j ∧
      (j - ((2 * i + 1) * (2 * i + 1) - 1) / 2) % (2 * i + 1) = 0) ↔
    ((2 * i + 1) ∣ (2 * j + 1) ∧ (2 * i + 1) * (2 * i + 1) ≤ 2 * j + 1) := by
  have hpp : (2 * i + 1) * (2 * i + 1) = 2 * (2 * i * i + 2 * i) + 1 := by ring
  have hs : ((2 * i + 1) * (2 * i + 1) - 1) / 2 = 2 * i * i + 2 * i := by
    rw [hpp]; omega
  rw [hs]
  constructor
  · rintro ⟨h1, h2⟩
    obtain ⟨m, hm⟩ := Nat.dvd_of_mod_eq_zero h2
    have hj : j = 2 * i * i + 2 * i + (2 * i + 1) * m := by omega
    constructor
    · exact ⟨2 * i + 1 + 2 * m, by rw [hj]; ring⟩
    · have hprod : 2 * j + 1 = (2 * i + 1) * (2 * i + 1) + 2 * ((2 * i + 1) * m) := by
        rw [hj, hpp]; ring
      omega
  · rintro ⟨⟨t, ht⟩, hle⟩
    have ht2 : t % 2 = 1 := by
      rcases Nat.even_or_odd t with he | ho
      · obtain ⟨u, hu⟩ := he
        have : 2 * j + 1 = 2 * ((2 * i + 1) * u) := by rw [ht, hu]; ring
        omega
      · obtain ⟨u, hu⟩ := ho
        omega
    have htp : 2 * i + 1 ≤ t := by
      by_contra hlt
      push_neg at hlt
      have hmul : t * (2 * i + 1) < (2 * i + 1) * (2 * i + 1) :=
        Nat.mul_lt_mul_of_lt_of_le hlt (le_refl _) (by omega)
      have hcomm : (2 * i + 1) * t = t * (2 * i + 1) := by ring
      omega
    obtain ⟨m, hm⟩ : ∃ m, t = (2 * i + 1) + 2 * m := ⟨(t - (2 * i + 1)) / 2, by omega⟩
    have hj : j = 2 * i * i + 2 * i + (2 * i + 1) * m := by
      have : 2 * j + 1 = 2 * (2 * i * i + 2 * i + (2 * i + 1) * m) + 1 := by
        rw [ht, hm]; ring
      omega
    constructor
    · omega
    · have hsub : 2 * i * i + 2 * i + (2 * i + 1) * m - (2 * i * i + 2 * i)
          = (2 * i + 1) * m := by omega
      rw [hj, hsub]
      exact Nat.mul_mod_right _ _

/-- A still-set cell reached by the bit-sieve loop holds a prime odd
number. -/
theorem odd_prime_of_unmarked {i : Nat} (h1 : 1 ≤ i) (h : ¬ oddMarkedBy i i) :
    Nat.Prime (2 * i + 1) := by
  by_contra hnp
  have hsq : (2 * i + 1).minFac ^ 2 ≤ 2 * i + 1 :=
    Nat.minFac_sq_le_self (by omega) hnp
  have hp : (2 * i + 1).minFac.Prime := Nat.minFac_prime (by omega)
  have hdvd : (2 * i + 1).minFac ∣ 2 * i + 1 := Nat.minFac_dvd _
  have h2q : 2 ≤ (2 * i + 1).minFac := hp.two_le
  have hodd : (2 * i + 1).minFac % 2 = 1 := by
    by_contra he
    have h2d : (2 : Nat) ∣ (2 * i + 1).minFac := by omega
    obtain ⟨v, hv⟩ := h2d.trans hdvd
    omega
  obtain ⟨k, hk⟩ : ∃ k, (2 * i + 1).minFac = 2 * k + 1 :=
    ⟨((2 * i + 1).minFac - 1) / 2, by omega⟩
  have hq2 : (2 * i + 1).minFac * (2 * i + 1).minFac ≤ 2 * i + 1 := by
    rw [← Nat.pow_two]; exact hsq
  have hlt : (2 * i + 1).minFac < 2 * i + 1 :=
    lt_of_lt_of_le (lt_of_lt_of_le (by omega) (Nat.mul_le_mul_right _ h2q)) hq2
  have hklt : k < i := by omega
  apply h
  refine ⟨k, hklt, ?_, ?_, ?_⟩
  · rw [← hk]; exact hp
  · rw [← hk]; exact hdvd
  · rw [← hk]; exact hq2

/-- A cleared cell holds a composite odd number. -/
theorem odd_not_prime_of_marked {i : Nat} (h : oddMarkedBy i i) :
    ¬ Nat.Prime (2 * i + 1) := by
  intro hp
  obtain ⟨k, hklt, hkp, hdvd, hsq⟩ := h
  rcases hp.eq_one_or_self_of_dvd _ hdvd with h1 | h1
  · have := hkp.two_le; omega
  · omega

theorem oddMarkedBy_succ (i j : Nat) :
    oddMarkedBy (i + 1) j ↔ oddMarkedBy i j ∨
      (Nat.Prime (2 * i + 1) ∧ (2 * i + 1) ∣ (2 * j + 1) ∧
        (2 * i + 1) * (2 * i + 1) ≤ 2 * j + 1) := by
  constructor
  · rintro ⟨k, hk, hp1, hp2, hp3⟩
    rcases Nat.lt_succ_iff_lt_or_eq.mp hk with hlt | rfl
    · exact Or.inl ⟨k, hlt, hp1, hp2, hp3⟩
    · exact Or.inr ⟨hp1, hp2, hp3⟩
  · rintro (⟨k, hk, hp1, hp2, hp3⟩ | ⟨hp1, hp2, hp3⟩)
    · exact ⟨k, by omega, hp1, hp2, hp3⟩
    · exact ⟨i, by omega, hp1, hp2, hp3⟩

theorem bitInv_init (ssize : Nat) : BitInv ssize 1 (fun _ => true) := by
  intro j _
  simp only [true_iff]
  rintro ⟨k, hk, hkp, -, -⟩
  have hk0 : k = 0 := by omega
  subst hk0
  exact absurd hkp.two_le (by omega)

theorem bitLoop_inv (ssize : Nat) :
    ∀ steps i g, BitInv ssize i g → 1 ≤ i →
      (∀ j, i ≤ j → j < i + steps → j ≤ ssize) →
      BitInv ssize (i + steps) (bitLoop ssize g i steps) := by
  intro steps
  induction steps with
  | zero => intro i g hInv _ _; simpa using hInv
  | succ s ih =>
    intro i g hInv h1 hbound
    have hi_le : i ≤ ssize := hbound i le_rfl (by omega)
    have hgoal : BitInv ssize ((i + 1) + s)
        (bitLoop ssize (if g i then bitMark ssize i g else g) (i + 1) s) := by
      refine ih (i + 1) _ ?_ (by omega) (fun j hj hj' => hbound j (by omega) (by omega))
      by_cases hgi : g i = true
      · rw [if_pos hgi]
        have hiprime : Nat.Prime (2 * i + 1) :=
          odd_prime_of_unmarked h1 ((hInv i hi_le).mp hgi)
        intro j hj
        unfold bitMark
        split
        · next hc =>
          simp only [Bool.false_eq_true, false_iff, not_not]
          obtain ⟨hd, hl⟩ := (bitMark_cond i j).mp ⟨hc.1, hc.2.2⟩
          exact (oddMarkedBy_succ i j).mpr (Or.inr ⟨hiprime, hd, hl⟩)
        · next hc =>
          rw [hInv j hj, oddMarkedBy_succ]
          constructor
          · intro hb
            rintro (hm | ⟨-, hd, hl⟩)
            · exact hb hm
            · have hcond := (bitMark_cond i j).mpr ⟨hd, hl⟩
              exact hc ⟨hcond.1, hj, hcond.2⟩
          · intro hb hm
            exact hb (Or.inl hm)
      · rw [if_neg hgi]
        have hmarked : oddMarkedBy i i := by
          by_contra hnm
          exact hgi ((hInv i hi_le).mpr hnm)
        have hnp := odd_not_prime_of_marked hmarked
        intro j hj
        rw [hInv j hj, oddMarkedBy_succ]
        constructor
        · intro hb
          rintro (hm | ⟨hip, -, -⟩)
          · exact hb hm
          · exact hnp hip
        · intro hb hm
          exact hb (Or.inl hm)
    have harith : (i + 1) + s = i + (s + 1) := by omega
    rw [harith] at hgoal
    exact fun j hj => by
      rw [show bitLoop ssize g i (s + 1) =
        bitLoop ssize (if g i then bitMark ssize i g else g) (i + 1) s from rfl]
      exact hgoal j hj

/-- The cell of an odd `3 ≤ n ≤ limit` survives the bit-sieve loop
exactly when `n` is prime. -/
theorem bitSieve_cell_iff (limit n : Nat) (hodd : n % 2 = 1) (h3 : 3 ≤ n)
    (hle : n ≤ limit) :
    bitLoop ((limit - 1) / 2) (fun _ => true) 1 (Nat.sqrt limit / 2)
      ((n - 1) / 2) = true ↔ Nat.Prime n := by
  have hbound : ∀ j', 1 ≤ j' → j' < 1 + Nat.sqrt limit / 2 →
      j' ≤ (limit - 1) / 2 := by
    intro j' hj1 hj2
    have hs : Nat.sqrt limit < limit := Nat.sqrt_lt_self (by omega)
    have hdd : Nat.sqrt limit / 2 ≤ (limit - 1) / 2 := Nat.div_le_div_right (by omega)
    omega
  have hInv := bitLoop_inv ((limit - 1) / 2) (Nat.sqrt limit / 2) 1 _
    (bitInv_init _) le_rfl hbound
  have hj : n = 2 * ((n - 1) / 2) + 1 := by omega
  have hjle : (n - 1) / 2 ≤ (limit - 1) / 2 := Nat.div_le_div_right (by omega)
  rw [show (1 : Nat) + Nat.sqrt limit / 2 = Nat.sqrt limit / 2 + 1 from by omega]
    at hInv
  rw [hInv _ hjle]
  constructor
  · intro hunm
    by_contra hnp
    have hsq : n.minFac ^ 2 ≤ n := Nat.minFac_sq_le_self (by omega) hnp
    have hp : n.minFac.Prime := Nat.minFac_prime (by omega)
    have hdvd := Nat.minFac_dvd n
    have h2q := hp.two_le
    have hoddq : n.minFac % 2 = 1 := by
      by_contra he
      have h2d : (2 : Nat) ∣ n.minFac := by omega
      obtain ⟨v, hv⟩ := h2d.trans hdvd
      omega
    obtain ⟨k, hk⟩ : ∃ k, n.minFac = 2 * k + 1 := ⟨(n.minFac - 1) / 2, by omega⟩
    have hq2 : n.minFac * n.minFac ≤ n := by rw [← Nat.pow_two]; exact hsq
    have hqs : n.minFac ≤ Nat.sqrt limit := Nat.le_sqrt.mpr (le_trans hq2 hle)
    have hklt : k < Nat.sqrt limit / 2 + 1 := by omega
    apply hunm
    refine ⟨k, hklt, ?_, ?_, ?_⟩
    · rw [← hk]; exact hp
    · rw [← hk, ← hj]; exact hdvd
    · rw [← hk, ← hj]; exact hq2
  · intro hp hmark
    obtain ⟨k, -, hkp, hdvd, hsq⟩ := hmark
    rw [← hj] at hdvd hsq
    rcases hp.eq_one_or_self_of_dvd _ hdvd with h1 | h1
    · have := hkp.two_le; omega
    · rw [h1] at hsq
      have hnn : n < n * n :=
        lt_of_lt_of_le (by omega) (Nat.mul_le_mul_right _ (by omega : 2 ≤ n))
      omega

/-- Membership characterization of `generate_known_primes_bit_sieve`:
the number 2 is always a member, and the odd members are exactly the odd
primes in `[3, limit]`. -/
theorem generate_known_primes_bit_sieve_iff (limit n : Nat) :
    generate_known_primes_bit_sieve limit n = true ↔
      (n = 2 ∨ (n % 2 = 1 ∧ 3 ≤ n ∧ n ≤ limit ∧ Nat.Prime n)) := by
  unfold generate_known_primes_bit_sieve
  simp only [Bool.or_eq_true, Bool.and_eq_true, beq_iff_eq, decide_eq_true_eq]
  constructor
  · rintro (h2 | ⟨⟨⟨hodd, hj1⟩, hjle⟩, hcell⟩)
    · exact Or.inl h2
    · have h3 : 3 ≤ n := by omega
      have hle : n ≤ limit := by omega
      exact Or.inr ⟨hodd, h3, hle, (bitSieve_cell_iff limit n hodd h3 hle).mp hcell⟩
  · rintro (h2 | ⟨hodd, h3, hle, hp⟩)
    · exact Or.inl h2
    · refine Or.inr ⟨⟨⟨hodd, by omega⟩, by omega⟩,
        (bitSieve_cell_iff limit n hodd h3 hle).mpr hp⟩

/-! ### Correctness of the segmented sieve -/

theorem segStartIdx_ge (a p : Nat) (hp : 1 ≤ p) : a ≤ segStartIdx a p := by
  unfold segStartIdx
  have hdm := Nat.div_add_mod (a + p - 1) p
  have hmlt : (a + p - 1) % p < p := Nat.mod_lt _ (by omega)
  have hcomm : (a + p - 1) / p * p = p * ((a + p - 1) / p) := by ring
  omega

theorem segStartIdx_dvd (a p : Nat) : p ∣ segStartIdx a p :=
  ⟨(a + p - 1) / p, by unfold segStartIdx; ring⟩

/-- `segStartIdx a p` is the least multiple of `p` at or above `a`. -/
theorem segStartIdx_min (a p n : Nat) (hp : 1 ≤ p) (hd : p ∣ n) (hn : a ≤ n) :
    segStartIdx a p ≤ n := by
  obtain ⟨m, hm⟩ := hd
  unfold segStartIdx
  by_contra hlt
  push_neg at hlt
  have hdm := Nat.div_add_mod (a + p - 1) p
  have hmlt : (a + p - 1) % p < p := Nat.mod_lt _ (by omega)
  have hcomm : (a + p - 1) / p * p = p * ((a + p - 1) / p) := by ring
  have hmq : m < (a + p - 1) / p := by
    by_contra hge
    push_neg at hge
    have hmono : p * ((a + p - 1) / p) ≤ p * m := Nat.mul_le_mul_left _ hge
    omega
  have hstep : p * (m + 1) ≤ p * ((a + p - 1) / p) := Nat.mul_le_mul_left _ (by omega)
  have hexp : p * (m + 1) = p * m + p := by ring
  omega

/-- The base-prime marking of a segment clears exactly the cells
divisible by a base prime (for cells at or after the segment start). -/
theorem segMarked_iff (limit a n : Nat) (ha : a ≤ n) :
    segMarked limit a n = true ↔
      ∃ p, Nat.Prime p ∧ p ≤ Nat.sqrt limit ∧ p ∣ n := by
  unfold segMarked
  rw [List.any_eq_true]
  constructor
  · rintro ⟨p, hpmem, hcond⟩
    simp only [Bool.and_eq_true, decide_eq_true_eq] at hcond
    obtain ⟨⟨hbase, hstart⟩, hmod⟩ := hcond
    rw [generate_known_primes_standard_iff] at hbase
    obtain ⟨hple, hpp⟩ := hbase
    have hdvd : p ∣ n := by
      have h1 : p ∣ (n - segStartIdx a p) := Nat.dvd_of_mod_eq_zero hmod
      have h2 : p ∣ segStartIdx a p := segStartIdx_dvd a p
      have h3 : segStartIdx a p + (n - segStartIdx a p) = n := by omega
      rw [← h3]
      exact Nat.dvd_add h2 h1
    exact ⟨p, hpp, hple, hdvd⟩
  · rintro ⟨p, hpp, hple, hdvd⟩
    have hp1 : 1 ≤ p := by have := hpp.two_le; omega
    refine ⟨p, ?_, ?_⟩
    · rw [List.mem_range]; omega
    · simp only [Bool.and_eq_true, decide_eq_true_eq]
      have hstart : segStartIdx a p ≤ n := segStartIdx_min a p n hp1 hdvd ha
      refine ⟨⟨?_, hstart⟩, ?_⟩
      · rw [generate_known_primes_standard_iff]; exact ⟨hple, hpp⟩
      · exact Nat.mod_eq_zero_of_dvd (Nat.dvd_sub' hdvd (segStartIdx_dvd a p))

/-- Ceiling coverage: `⌈x / bs⌉` steps of size `bs` cover `x`. -/
theorem ceil_cover (x bs : Nat) (hbs : 1 ≤ bs) :
    x ≤ ((x + (bs - 1)) / bs) * bs := by
  have hdm := Nat.div_add_mod (x + (bs - 1)) bs
  have hmlt : (x + (bs - 1)) % bs < bs := Nat.mod_lt _ (by omega)
  have hcomm : ((x + (bs - 1)) / bs) * bs = bs * ((x + (bs - 1)) / bs) := by ring
  omega

/-- Every `n` in `[s + 1, limit]` lies in one of the windows enumerated
by `range(s + 1, limit + 1, seg)`. -/
theorem window_exists (s seg limit n : Nat) (hseg : 1 ≤ seg)
    (h1 : s + 1 ≤ n) (h2 : n ≤ limit) :
    ∃ a ∈ List.range' (s + 1) ((limit + 1 - (s + 1) + (seg - 1)) / seg) seg,
      a ≤ n ∧ n ≤ min (a + seg - 1) limit := by
  have hx : limit + 1 - (s + 1) = limit - s := by omega
  have hdm := Nat.div_add_mod (n - (s + 1)) seg
  have hmlt : (n - (s + 1)) % seg < seg := Nat.mod_lt _ (by omega)
  refine ⟨s + 1 + seg * ((n - (s + 1)) / seg), ?_, by omega, by omega⟩
  rw [List.mem_range']
  refine ⟨(n - (s + 1)) / seg, ?_, rfl⟩
  have hcover := ceil_cover (limit - s) seg hseg
  have hcomm : ((limit - s + (seg - 1)) / seg) * seg
      = seg * ((limit - s + (seg - 1)) / seg) := by ring
  by_contra hge
  push_neg at hge
  have hmono : seg * ((limit + 1 - (s + 1) + (seg - 1)) / seg)
      ≤ seg * ((n - (s + 1)) / seg) := Nat.mul_le_mul_left _ hge
  rw [hx] at hmono
  omega

/-- Membership characterization of `generate_known_primes_segmented`:
for any positive window size the returned set is exactly the primes up
to `limit`. -/
theorem generate_known_primes_segmented_iff (limit seg n : Nat) (hseg : 1 ≤ seg) :
    generate_known_primes_segmented limit seg n = true ↔
      n ≤ limit ∧ Nat.Prime n := by
  unfold generate_known_primes_segmented
  rw [Bool.or_eq_true]
  constructor
  · rintro (hbase | hwin)
    · rw [generate_known_primes_standard_iff] at hbase
      exact ⟨le_trans hbase.1 (Nat.sqrt_le_self limit), hbase.2⟩
    · rw [List.any_eq_true] at hwin
      obtain ⟨a, hamem, hcond⟩ := hwin
      simp only [Bool.and_eq_true, decide_eq_true_eq, Bool.not_eq_true'] at hcond
      obtain ⟨⟨han, hnb⟩, hunm⟩ := hcond
      rw [List.mem_range'] at hamem
      obtain ⟨idx, hidx, haeq⟩ := hamem
      have hsn : Nat.sqrt limit + 1 ≤ n := by omega
      have hle : n ≤ limit := by
        have := min_le_right (a + seg - 1) limit; omega
      refine ⟨hle, ?_⟩
      have hs1 : 1 ≤ Nat.sqrt limit := by
        have := Nat.sqrt_pos.mpr (show 0 < limit by omega); omega
      by_contra hnp
      have hsq : n.minFac ^ 2 ≤ n := Nat.minFac_sq_le_self (by omega) hnp
      have hp := Nat.minFac_prime (show n ≠ 1 by omega)
      have hq2 : n.minFac * n.minFac ≤ n := by rw [← Nat.pow_two]; exact hsq
      have hqs : n.minFac ≤ Nat.sqrt limit := Nat.le_sqrt.mpr (le_trans hq2 hle)
      have hm : segMarked limit a n = true :=
        (segMarked_iff limit a n han).mpr ⟨n.minFac, hp, hqs, Nat.minFac_dvd n⟩
      rw [hunm] at hm
      exact Bool.false_ne_true hm
  · rintro ⟨hle, hp⟩
    by_cases hbase : n ≤ Nat.sqrt limit
    · exact Or.inl ((generate_known_primes_standard_iff _ n).mpr ⟨hbase, hp⟩)
    · push_neg at hbase
      right
      rw [List.any_eq_true]
      obtain ⟨a, hamem, han, hnb⟩ :=
        window_exists (Nat.sqrt limit) seg limit n hseg (by omega) hle
      refine ⟨a, hamem, ?_⟩
      simp only [Bool.and_eq_true, decide_eq_true_eq, Bool.not_eq_true']
      refine ⟨⟨han, hnb⟩, ?_⟩
      cases hmq : segMarked limit a n with
      | false => rfl
      | true =>
        exfalso
        rw [segMarked_iff limit a n han] at hmq
        obtain ⟨p, hpp, hps, hpd⟩ := hmq
        rcases hp.eq_one_or_self_of_dvd _ hpd with h1 | h1
        · exact absurd hpp.two_le (by omega)
        · omega

/-! ### The validation scan as a sum of per-number increments -/

/-- True-positive increment contributed by candidate `n`. -/
def tpDelta (classify : Nat → Bool) (truth : Finset Nat) (n : Nat) : Nat :=
  if 2 < n ∧ n % 2 = 0 then 0
  else if classify n && decide (n ∈ truth) then 1 else 0

/-- False-positive increment contributed by candidate `n`. -/
def fpDelta (classify : Nat → Bool) (truth : Finset Nat) (n : Nat) : Nat :=
  if 2 < n ∧ n % 2 = 0 then 0
  else if classify n && !decide (n ∈ truth) then 1 else 0

/-- False-negative increment contributed by candidate `n`. -/
def fnDelta (classify : Nat → Bool) (truth : Finset Nat) (n : Nat) : Nat :=
  if 2 < n ∧ n % 2 = 0 then 0
  else if !classify n && decide (n ∈ truth) then 1 else 0

theorem scanStep_tp (cap : Nat) (c : Nat → Bool) (t : Finset Nat)
    (st : ScanState) (n : Nat) :
    (scanStep cap c t st n).true_positives = st.true_positives + tpDelta c t n := by
  unfold scanStep tpDelta
  split
  · simp
  · cases h1 : c n <;> cases h2 : decide (n ∈ t) <;> simp [h1, h2]

theorem scanStep_fp (cap : Nat) (c : Nat → Bool) (t : Finset Nat)
    (st : ScanState) (n : Nat) :
    (scanStep cap c t st n).false_positives = st.false_positives + fpDelta c t n := by
  unfold scanStep fpDelta
  split
  · simp
  · cases h1 : c n <;> cases h2 : decide (n ∈ t) <;> simp [h1, h2]

theorem scanStep_fn (cap : Nat) (c : Nat → Bool) (t : Finset Nat)
    (st : ScanState) (n : Nat) :
    (scanStep cap c t st n).false_negatives = st.false_negatives + fnDelta c t n := by
  unfold scanStep fnDelta
  split
  · simp
  · cases h1 : c n <;> cases h2 : decide (n ∈ t) <;> simp [h1, h2]

theorem scanFold_tp (cap : Nat) (c : Nat → Bool) (t : Finset Nat) :
    ∀ (l : List Nat) (st : ScanState),
      (l.foldl (scanStep cap c t) st).true_positives
        = st.true_positives + (l.map (tpDelta c t)).sum := by
  intro l
  induction l with
  | nil => intro st; simp
  | cons a l ih =>
    intro st
    simp only [List.foldl_cons, List.map_cons, List.sum_cons]
    rw [ih, scanStep_tp]
    omega

theorem scanFold_fp (cap : Nat) (c : Nat → Bool) (t : Finset Nat) :
    ∀ (l : List Nat) (st : ScanState),
      (l.foldl (scanStep cap c t) st).false_positives
        = st.false_positives + (l.map (fpDelta c t)).sum := by
  intro l
  induction l with
  | nil => intro st; simp
  | cons a l ih =>
    intro st
    simp only [List.foldl_cons, List.map_cons, List.sum_cons]
    rw [ih, scanStep_fp]
    omega

theorem scanFold_fn (cap : Nat) (c : Nat → Bool) (t : Finset Nat) :
    ∀ (l : List Nat) (st : ScanState),
      (l.foldl (scanStep cap c t) st).false_negatives
        = st.false_negatives + (l.map (fnDelta c t)).sum := by
  intro l
  induction l with
  | nil => intro st; simp
  | cons a l ih =>
    intro st
    simp only [List.foldl_cons, List.map_cons, List.sum_cons]
    rw [ih, scanStep_fn]
    omega

theorem foldl_map_flatten {α β γ : Type _} (f : α → List β) (g : γ → β → γ) :
    ∀ (l : List α) (init : γ),
      l.foldl (fun acc a => (f a).foldl g acc) init
        = ((l.map f).flatten).foldl g init := by
  intro l
  induction l with
  | nil => intro init; simp
  | cons a l ih =>
    intro init
    simp only [List.foldl_cons, List.map_cons, List.flatten_cons, List.foldl_append]
    exact ih _

theorem sum_map_flatten {α β : Type _} (f : α → List β) (d : β → Nat) :
    ∀ l : List α,
      (((l.map f).flatten).map d).sum
        = (l.map (fun a => ((f a).map d).sum)).sum := by
  intro l
  induction l with
  | nil => simp
  | cons a l ih =>
    simp only [List.map_cons, List.flatten_cons, List.map_append, List.sum_append,
      List.sum_cons]
    rw [ih]

/-- The batches `range(first, limit + 1, bs)`, each truncated at `limit`,
tile the inclusive range `[first, limit]`. -/
theorem batch_tiling (L bs : Nat) (hbs : 1 ≤ bs) :
    ∀ cnt first, L + 1 ≤ first + cnt * bs →
      ((List.range' first cnt bs).map
          (fun a => List.range' a (min (a + bs - 1) L + 1 - a) 1)).flatten
        = List.range' first (L + 1 - first) 1 := by
  intro cnt
  induction cnt with
  | zero =>
    intro first hcov
    have hz : L + 1 - first = 0 := by omega
    simp [hz]
  | succ c ih =>
    intro first hcov
    have hexp : (c + 1) * bs = c * bs + bs := by ring
    rw [List.range'_succ]
    simp only [List.map_cons, List.flatten_cons]
    rw [ih (first + bs) (by omega)]
    by_cases hcase : first + bs ≤ L + 1
    · have hm : min (first + bs - 1) L + 1 - first = bs := by omega
      rw [hm]
      have happ := List.range'_append_1 first bs (L + 1 - (first + bs))
      rw [show L + 1 - (first + bs) + bs = L + 1 - first from by omega] at happ
      exact happ
    · push_neg at hcase
      have hzero : L + 1 - (first + bs) = 0 := by omega
      rw [hzero]
      simp only [List.range'_zero, List.append_nil]
      have hm : min (first + bs - 1) L + 1 - first = L + 1 - first := by omega
      rw [hm]

/-- The batched scan of `validate_primality_test` is the plain scan of
`[first, limit]`. -/
theorem seqScan_eq (cap : Nat) (c : Nat → Bool) (t : Finset Nat)
    (L bs first : Nat) (hbs : 1 ≤ bs) (st0 : ScanState) :
    (batchStarts first L bs).foldl
      (fun st a => (List.range' a (min (a + bs - 1) L + 1 - a) 1).foldl
        (scanStep cap c t) st) st0
      = (List.range' first (L + 1 - first) 1).foldl (scanStep cap c t) st0 := by
  unfold batchStarts
  rw [foldl_map_flatten (fun a => List.range' a (min (a + bs - 1) L + 1 - a) 1)
    (scanStep cap c t)]
  rw [batch_tiling L bs hbs _ first ?hcov]
  case hcov =>
    have := ceil_cover (L + 1 - first) bs hbs
    omega

theorem mkResult_tp (limit : Nat) (t : Finset Nat) (st : ScanState) :
    (mkResult limit t st).true_positives = st.true_positives := rfl

theorem mkResult_fp (limit : Nat) (t : Finset Nat) (st : ScanState) :
    (mkResult limit t st).false_positives = st.false_positives := rfl

theorem mkResult_fn (limit : Nat) (t : Finset Nat) (st : ScanState) :
    (mkResult limit t st).false_negatives = st.false_negatives := rfl

theorem validate_none_eq (c : Nat → Bool) (t : Finset Nat) (limit bs : Nat) :
    validate_primality_test c t limit bs none
      = mkResult limit t ((batchStarts 2 limit bs).foldl
          (fun st a => (List.range' a (min (a + bs - 1) limit + 1 - a) 1).foldl
            (scanStep 1000 c t) st) ScanState.zero) := rfl

theorem validate_some_eq (c : Nat → Bool) (t : Finset Nat) (limit bs : Nat)
    (k tp fp fneg : Nat) (ts : String) :
    validate_primality_test c t limit bs (some ⟨k, tp, fp, fneg, ts⟩)
      = mkResult limit t ((batchStarts (k + 1) limit bs).foldl
          (fun st a => (List.range' a (min (a + bs - 1) limit + 1 - a) 1).foldl
            (scanStep 1000 c t) st)
          ⟨tp, fp, fneg, [], []⟩) := rfl

theorem batch_tp (c : Nat → Bool) (t : Finset Nat) (a b : Nat) :
    (validate_primality_test_batch c t a b).true_positives
      = ((List.range' a (b + 1 - a) 1).map (tpDelta c t)).sum := by
  unfold validate_primality_test_batch
  rw [scanFold_tp]
  simp [ScanState.zero]

theorem batch_fp (c : Nat → Bool) (t : Finset Nat) (a b : Nat) :
    (validate_primality_test_batch c t a b).false_positives
      = ((List.range' a (b + 1 - a) 1).map (fpDelta c t)).sum := by
  unfold validate_primality_test_batch
  rw [scanFold_fp]
  simp [ScanState.zero]

theorem batch_fn (c : Nat → Bool) (t : Finset Nat) (a b : Nat) :
    (validate_primality_test_batch c t a b).false_negatives
      = ((List.range' a (b + 1 - a) 1).map (fnDelta c t)).sum := by
  unfold validate_primality_test_batch
  rw [scanFold_fn]
  simp [ScanState.zero]

/-- The three aggregate counters of the distributed run are the sums of
the per-number increments over `[2, limit]`. -/
theorem distributed_counters (c : Nat → Bool) (t : Finset Nat)
    (limit bs np : Nat) (hbs : 1 ≤ bs) :
    (validate_primality_test_distributed c t limit bs np).true_positives
        = ((List.range' 2 (limit + 1 - 2) 1).map (tpDelta c t)).sum
    ∧ (validate_primality_test_distributed c t limit bs np).false_positives
        = ((List.range' 2 (limit + 1 - 2) 1).map (fpDelta c t)).sum
    ∧ (validate_primality_test_distributed c t limit bs np).false_negatives
        = ((List.range' 2 (limit + 1 - 2) 1).map (fnDelta c t)).sum := by
  have hcov : limit + 1 ≤ 2 + (limit + 1 - 2 + (bs - 1)) / bs * bs := by
    have := ceil_cover (limit + 1 - 2) bs hbs
    omega
  have htile := batch_tiling limit bs hbs ((limit + 1 - 2 + (bs - 1)) / bs) 2 hcov
  refine ⟨?_, ?_, ?_⟩
  · have hexp : (validate_primality_test_distributed c t limit bs np).true_positives
        = ((batchStarts 2 limit bs).map (fun a =>
            (validate_primality_test_batch c t a (min (a + bs - 1) limit)).true_positives)).sum := by
      simp only [validate_primality_test_distributed, mkResult_tp, List.map_map]
      exact congrArg List.sum (List.map_congr_left (fun a _ => rfl))
    rw [hexp,
      List.map_congr_left (fun a _ => batch_tp c t a (min (a + bs - 1) limit)),
      ← sum_map_flatten]
    unfold batchStarts
    rw [htile]
  · have hexp : (validate_primality_test_distributed c t limit bs np).false_positives
        = ((batchStarts 2 limit bs).map (fun a =>
            (validate_primality_test_batch c t a (min (a + bs - 1) limit)).false_positives)).sum := by
      simp only [validate_primality_test_distributed, mkResult_fp, List.map_map]
      exact congrArg List.sum (List.map_congr_left (fun a _ => rfl))
    rw [hexp,
      List.map_congr_left (fun a _ => batch_fp c t a (min (a + bs - 1) limit)),
      ← sum_map_flatten]
    unfold batchStarts
    rw [htile]
  · have hexp : (validate_primality_test_distributed c t limit bs np).false_negatives
        = ((batchStarts 2 limit bs).map (fun a =>
            (validate_primality_test_batch c t a (min (a + bs - 1) limit)).false_negatives)).sum := by
      simp only [validate_primality_test_distributed, mkResult_fn, List.map_map]
      exact congrArg List.sum (List.map_congr_left (fun a _ => rfl))
    rw [hexp,
      List.map_congr_left (fun a _ => batch_fn c t a (min (a + bs - 1) limit)),
      ← sum_map_flatten]
    unfold batchStarts
    rw [htile]

/-- The three counters of the sequential run, resumed or not, are the
seeded values plus the sums of the increments over `[first, limit]`. -/
theorem sequential_counters (c : Nat → Bool) (t : Finset Nat)
    (limit bs first : Nat) (hbs : 1 ≤ bs) (st0 : ScanState) :
    ((batchStarts first limit bs).foldl
        (fun st a => (List.range' a (min (a + bs - 1) limit + 1 - a) 1).foldl
          (scanStep 1000 c t) st) st0).true_positives
        = st0.true_positives + ((List.range' first (limit + 1 - first) 1).map (tpDelta c t)).sum
    ∧ ((batchStarts first limit bs).foldl
        (fun st a => (List.range' a (min (a + bs - 1) limit + 1 - a) 1).foldl
          (scanStep 1000 c t) st) st0).false_positives
        = st0.false_positives + ((List.range' first (limit + 1 - first) 1).map (fpDelta c t)).sum
    ∧ ((batchStarts first limit bs).foldl
        (fun st a => (List.range' a (min (a + bs - 1) limit + 1 - a) 1).foldl
          (scanStep 1000 c t) st) st0).false_negatives
        = st0.false_negatives + ((List.range' first (limit + 1 - first) 1).map (fnDelta c t)).sum := by
  rw [seqScan_eq 1000 c t limit bs first hbs st0]
  exact ⟨scanFold_tp 1000 c t _ st0, scanFold_fp 1000 c t _ st0,
    scanFold_fn 1000 c t _ st0⟩

/-! ### The candidate classifier -/

theorem trialDivisors_mem (n d : Nat) :
    d ∈ trialDivisors n ↔ d % 2 = 1 ∧ 3 ≤ d ∧ d ≤ Nat.sqrt n := by
  unfold trialDivisors
  rw [List.mem_range']
  constructor
  · rintro ⟨i, hi, rfl⟩
    omega
  · rintro ⟨hodd, h3, hle⟩
    exact ⟨(d - 3) / 2, by omega, by omega⟩

/-- `PrimeClassifier.is_prime` agrees with mathematical primality. -/
theorem is_prime_iff (n : Nat) : is_prime n = true ↔ Nat.Prime n := by
  unfold is_prime
  split_ifs with h1 h2 h3
  · simp only [Bool.false_eq_true, false_iff]
    exact fun hp => absurd hp.two_le (by omega)
  · simp only [Bool.or_eq_true, beq_iff_eq] at h2
    simp only [true_iff]
    rcases h2 with rfl | rfl
    · exact Nat.prime_two
    · exact Nat.prime_three
  · simp only [Bool.false_eq_true, false_iff]
    simp only [beq_iff_eq] at h3
    simp only [Bool.or_eq_true, beq_iff_eq, not_or] at h2
    intro hp
    have h2d : (2 : Nat) ∣ n := ⟨n / 2, by omega⟩
    rcases hp.eq_one_or_self_of_dvd 2 h2d with h | h <;> omega
  · simp only [beq_iff_eq] at h3
    simp only [Bool.or_eq_true, beq_iff_eq, not_or] at h2
    rw [List.all_eq_true]
    constructor
    · intro hall
      by_contra hnp
      have hq := Nat.minFac_prime (show n ≠ 1 by omega)
      have hqd := Nat.minFac_dvd n
      have hsq : n.minFac ^ 2 ≤ n := Nat.minFac_sq_le_self (by omega) hnp
      have hq2 : n.minFac * n.minFac ≤ n := by rw [← Nat.pow_two]; exact hsq
      have hqs : n.minFac ≤ Nat.sqrt n := Nat.le_sqrt.mpr hq2
      have hqodd : n.minFac % 2 = 1 := by
        by_contra he
        have h2d : (2 : Nat) ∣ n.minFac := by omega
        obtain ⟨v, hv⟩ := h2d.trans hqd
        omega
      have h3q : 3 ≤ n.minFac := by have := hq.two_le; omega
      have hmem : n.minFac ∈ trialDivisors n :=
        (trialDivisors_mem n _).mpr ⟨hqodd, h3q, hqs⟩
      have hx := hall _ hmem
      simp only [bne_iff_ne, ne_eq] at hx
      exact hx (Nat.mod_eq_zero_of_dvd hqd)
    · intro hp d hd
      rw [trialDivisors_mem] at hd
      obtain ⟨hdodd, hd3, hds⟩ := hd
      have hlt : Nat.sqrt n < n := Nat.sqrt_lt_self (by omega)
      simp only [bne_iff_ne, ne_eq]
      intro hmod
      have hdvd : d ∣ n := Nat.dvd_of_mod_eq_zero hmod
      rcases hp.eq_one_or_self_of_dvd _ hdvd with h | h <;> omega

/-- A consistent `prime_cache` makes the cached classifier agree with
the uncached computation and stays consistent. -/
theorem is_prime_cached_spec (cache : List (Nat × Bool)) (n : Nat)
    (h : CacheConsistent cache) :
    (is_prime_cached cache n).1 = is_prime n ∧
      CacheConsistent (is_prime_cached cache n).2 := by
  unfold is_prime_cached
  cases hf : cache.find? (fun e => e.1 == n) with
  | none =>
    refine ⟨rfl, ?_⟩
    intro e he
    rcases List.mem_cons.mp he with rfl | he'
    · rfl
    · exact h e he'
  | some e =>
    have hmem : e ∈ cache := List.mem_of_find?_eq_some hf
    have hpe := List.find?_some hf
    have hen : e.1 = n := by simpa using hpe
    refine ⟨?_, h⟩
    show e.2 = is_prime n
    rw [h e hmem, hen]

/-! ### File loading -/

theorem load_fold_mem (n : Int) :
    ∀ (lines : List String) (acc : Finset Int),
      n ∈ lines.foldl (fun acc line =>
          match parseIntLine line with
          | some p => insert p acc
          | none => acc) acc
        ↔ (n ∈ acc ∨ ∃ l ∈ lines, parseIntLine l = some n) := by
  intro lines
  induction lines with
  | nil => intro acc; simp
  | cons a lines ih =>
    intro acc
    simp only [List.foldl_cons]
    cases hp : parseIntLine a with
    | none =>
      rw [ih, List.exists_mem_cons_iff]
      simp [hp]
    | some p =>
      rw [ih, List.exists_mem_cons_iff]
      simp only [Finset.mem_insert, hp, Option.some_inj]
      constructor
      · rintro ((rfl | hacc) | hex)
        · exact Or.inr (Or.inl rfl)
        · exact Or.inl hacc
        · exact Or.inr (Or.inr hex)
      · rintro (hacc | (rfl | hex))
        · exact Or.inl (Or.inr hacc)
        · exact Or.inl (Or.inl rfl)
        · exact Or.inr hex

/-! ### Empty scans -/

theorem batch_empty (c : Nat → Bool) (t : Finset Nat) (s e : Nat) (h : e < s) :
    validate_primality_test_batch c t s e = ScanState.zero := by
  unfold validate_primality_test_batch
  rw [show e + 1 - s = 0 from by omega]
  rfl

theorem validate_small (c : Nat → Bool) (t : Finset Nat) (limit bs : Nat)
    (hbs : 1 ≤ bs) (hlim : limit < 2) :
    validate_primality_test c t limit bs none = mkResult limit t ScanState.zero := by
  rw [validate_none_eq]
  congr 1
  unfold batchStarts
  rw [show limit + 1 - 2 + (bs - 1) = bs - 1 from by omega,
    Nat.div_eq_of_lt (by omega)]
  rfl

/-! ### Metric formulas -/

/-- The metric formulas of the specification: each derived metric is the
stated ratio, and 0 whenever its denominator is 0. -/
def MetricsSpec (r : ValidationResult) : Prop :=
  (r.precision = if r.true_positives + r.false_positives = 0 then 0
    else (r.true_positives : ℚ) / ((r.true_positives : ℚ) + (r.false_positives : ℚ)))
  ∧ (r.recall' = if r.true_positives + r.false_negatives = 0 then 0
    else (r.true_positives : ℚ) / ((r.true_positives : ℚ) + (r.false_negatives : ℚ)))
  ∧ (r.f1_score = if r.precision + r.recall' = 0 then 0
    else 2 * r.precision * r.recall' / (r.precision + r.recall'))
  ∧ (r.accuracy = if r.total_known_primes = 0 then 0
    else (r.true_positives : ℚ) / (r.total_known_primes : ℚ))

theorem mkResult_precision (limit : Nat) (t : Finset Nat) (st : ScanState) :
    (mkResult limit t st).precision
      = if st.true_positives + st.false_positives > 0 then
          (st.true_positives : ℚ) / ((st.true_positives : ℚ) + (st.false_positives : ℚ))
        else 0 := rfl

theorem mkResult_recall (limit : Nat) (t : Finset Nat) (st : ScanState) :
    (mkResult limit t st).recall'
      = if st.true_positives + st.false_negatives > 0 then
          (st.true_positives : ℚ) / ((st.true_positives : ℚ) + (st.false_negatives : ℚ))
        else 0 := rfl

theorem mkResult_f1 (limit : Nat) (t : Finset Nat) (st : ScanState) :
    (mkResult limit t st).f1_score
      = if (mkResult limit t st).precision + (mkResult limit t st).recall' > 0 then
          2 * (mkResult limit t st).precision * (mkResult limit t st).recall'
            / ((mkResult limit t st).precision + (mkResult limit t st).recall')
        else 0 := rfl

theorem mkResult_total (limit : Nat) (t : Finset Nat) (st : ScanState) :
    (mkResult limit t st).total_known_primes
      = (t.filter (fun p => p ≤ limit)).card := rfl

theorem mkResult_accuracy (limit : Nat) (t : Finset Nat) (st : ScanState) :
    (mkResult limit t st).accuracy
      = if (t.filter (fun p => p ≤ limit)).card > 0 then
          (st.true_positives : ℚ) / (((t.filter (fun p => p ≤ limit)).card : ℚ))
        else 0 := rfl

theorem mkResult_metrics (limit : Nat) (t : Finset Nat) (st : ScanState) :
    MetricsSpec (mkResult limit t st) := by
  have hP : (0 : ℚ) ≤ (mkResult limit t st).precision := by
    rw [mkResult_precision]
    split
    · positivity
    · exact le_refl 0
  have hR : (0 : ℚ) ≤ (mkResult limit t st).recall' := by
    rw [mkResult_recall]
    split
    · positivity
    · exact le_refl 0
  refine ⟨?_, ?_, ?_, ?_⟩
  · rw [mkResult_precision, mkResult_tp, mkResult_fp]
    rcases Nat.eq_zero_or_pos (st.true_positives + st.false_positives) with h | h
    · rw [if_neg (by omega), if_pos h]
    · rw [if_pos h, if_neg (by omega)]
  · rw [mkResult_recall, mkResult_tp, mkResult_fn]
    rcases Nat.eq_zero_or_pos (st.true_positives + st.false_negatives) with h | h
    · rw [if_neg (by omega), if_pos h]
    · rw [if_pos h, if_neg (by omega)]
  · rw [mkResult_f1]
    rcases eq_or_lt_of_le (add_nonneg hP hR) with h | h
    · rw [if_neg (by rw [← h]; exact lt_irrefl 0), if_pos h.symm]
    · rw [if_pos h, if_neg (fun h0 => by rw [h0] at h; exact lt_irrefl 0 h)]
  · rw [mkResult_accuracy, mkResult_tp, mkResult_total]
    rcases Nat.eq_zero_or_pos (t.filter (fun p => p ≤ limit)).card with h | h
    · rw [if_neg (by omega), if_pos h]
    · rw [if_pos h, if_neg (by omega)]

/-! ### The claims -/

/-- C1: for every `limit ≥ 0` and every `n` in `[2, limit]`, membership
in the set returned by `generate_known_primes_standard` coincides with
primality of `n`. -/
theorem C1_standard_sieve_correct (limit n : Nat) (h2 : 2 ≤ n)
    (hle : n ≤ limit) :
    generate_known_primes_standard limit n = true ↔ Nat.Prime n := by
  rw [generate_known_primes_standard_iff]
  exact ⟨fun h => h.2, fun h => ⟨hle, h⟩⟩

theorem C1_standard_sieve_correct_witness :
    (2 ≤ 7 ∧ 7 ≤ 10) ∧
      (generate_known_primes_standard 10 7 = true ↔ Nat.Prime 7) :=
  ⟨by decide, C1_standard_sieve_correct 10 7 (by decide) (by decide)⟩

/-- C2 counterexample: at `limit = 1` the bit sieve contains 2 while the
standard sieve is empty, so the three strategies are not identical for
every limit. -/
theorem C2_sieves_disagree_at_one :
    generate_known_primes_bit_sieve 1 2 = true ∧
      generate_known_primes_standard 1 2 = false := by
  exact ⟨rfl, rfl⟩

/-- C2 amended: for every `limit ≥ 2` and every positive window size,
the three sieve strategies return identical sets. -/
theorem C2_sieves_agree (limit seg n : Nat) (hlim : 2 ≤ limit)
    (hseg : 1 ≤ seg) :
    generate_known_primes_standard limit n = generate_known_primes_bit_sieve limit n
    ∧ generate_known_primes_standard limit n
        = generate_known_primes_segmented limit seg n := by
  constructor
  · rw [Bool.eq_iff_iff, generate_known_primes_standard_iff,
      generate_known_primes_bit_sieve_iff]
    constructor
    · rintro ⟨hle, hp⟩
      by_cases h2 : n = 2
      · exact Or.inl h2
      · have hodd : n % 2 = 1 := by
          by_contra ho
          have h2d : (2 : Nat) ∣ n := ⟨n / 2, by omega⟩
          rcases hp.eq_one_or_self_of_dvd 2 h2d with h | h <;> omega
        have h3 : 3 ≤ n := by have := hp.two_le; omega
        exact Or.inr ⟨hodd, h3, hle, hp⟩
    · rintro (rfl | ⟨hodd, h3, hle, hp⟩)
      · exact ⟨hlim, Nat.prime_two⟩
      · exact ⟨hle, hp⟩
  · rw [Bool.eq_iff_iff, generate_known_primes_standard_iff,
      generate_known_primes_segmented_iff limit seg n hseg]

theorem C2_sieves_agree_witness :
    (2 ≤ 10 ∧ 1 ≤ 3) ∧
      (generate_known_primes_standard 10 7 = generate_known_primes_bit_sieve 10 7
        ∧ generate_known_primes_standard 10 7
            = generate_known_primes_segmented 10 3 7) :=
  ⟨by decide, C2_sieves_agree 10 3 7 (by decide) (by decide)⟩

/-- C3: the aggregate counters of `validate_primality_test_distributed`
equal those of the sequential `validate_primality_test`, for every
classifier, ground-truth set, `limit ≥ 2`, `batch_size ≥ 1` and worker
count. -/
theorem C3_distributed_eq_sequential (c : Nat → Bool) (t : Finset Nat)
    (limit bs np : Nat) (hlim : 2 ≤ limit) (hbs : 1 ≤ bs) :
    (validate_primality_test_distributed c t limit bs np).true_positives
        = (validate_primality_test c t limit bs none).true_positives
    ∧ (validate_primality_test_distributed c t limit bs np).false_positives
        = (validate_primality_test c t limit bs none).false_positives
    ∧ (validate_primality_test_distributed c t limit bs np).false_negatives
        = (validate_primality_test c t limit bs none).false_negatives := by
  obtain ⟨hd1, hd2, hd3⟩ := distributed_counters c t limit bs np hbs
  have hs := sequential_counters c t limit bs 2 hbs ScanState.zero
  refine ⟨?_, ?_, ?_⟩
  · rw [hd1, validate_none_eq, mkResult_tp, hs.1]; simp [ScanState.zero]
  · rw [hd2, validate_none_eq, mkResult_fp, hs.2.1]; simp [ScanState.zero]
  · rw [hd3, validate_none_eq, mkResult_fn, hs.2.2]; simp [ScanState.zero]

theorem C3_distributed_eq_sequential_witness :
    (2 ≤ 10 ∧ 1 ≤ 3) ∧
      ((validate_primality_test_distributed (fun n => decide (n % 2 = 1))
            ({2, 3, 5, 7} : Finset Nat) 10 3 4).true_positives
          = (validate_primality_test (fun n => decide (n % 2 = 1))
              ({2, 3, 5, 7} : Finset Nat) 10 3 none).true_positives
        ∧ (validate_primality_test_distributed (fun n => decide (n % 2 = 1))
            ({2, 3, 5, 7} : Finset Nat) 10 3 4).false_positives
          = (validate_primality_test (fun n => decide (n % 2 = 1))
              ({2, 3, 5, 7} : Finset Nat) 10 3 none).false_positives
        ∧ (validate_primality_test_distributed (fun n => decide (n % 2 = 1))
            ({2, 3, 5, 7} : Finset Nat) 10 3 4).false_negatives
          = (validate_primality_test (fun n => decide (n % 2 = 1))
              ({2, 3, 5, 7} : Finset Nat) 10 3 none).false_negatives) :=
  ⟨by decide, C3_distributed_eq_sequential _ _ 10 3 4 (by decide) (by decide)⟩

/-- C4: for `2 ≤ k < limit`, scanning `[2, limit]` in one pass yields
the same counters as scanning `[2, k]`, checkpointing
`last_processed = k` with those counters, and resuming with the
checkpoint loaded, which pre-seeds the counters and continues from
`k + 1`. -/
theorem C4_resume_idempotent (c : Nat → Bool) (t : Finset Nat)
    (limit bs k : Nat) (ts : String) (hbs : 1 ≤ bs) (hk2 : 2 ≤ k)
    (hk : k < limit) :
    (validate_primality_test c t limit bs
        (some ⟨k, (validate_primality_test c t k bs none).true_positives,
          (validate_primality_test c t k bs none).false_positives,
          (validate_primality_test c t k bs none).false_negatives,
          ts⟩)).true_positives
      = (validate_primality_test c t limit bs none).true_positives
    ∧ (validate_primality_test c t limit bs
        (some ⟨k, (validate_primality_test c t k bs none).true_positives,
          (validate_primality_test c t k bs none).false_positives,
          (validate_primality_test c t k bs none).false_negatives,
          ts⟩)).false_positives
      = (validate_primality_test c t limit bs none).false_positives
    ∧ (validate_primality_test c t limit bs
        (some ⟨k, (validate_primality_test c t k bs none).true_positives,
          (validate_primality_test c t k bs none).false_positives,
          (validate_primality_test c t k bs none).false_negatives,
          ts⟩)).false_negatives
      = (validate_primality_test c t limit bs none).false_negatives := by
  have hsplit : List.range' 2 (limit + 1 - 2) 1
      = List.range' 2 (k + 1 - 2) 1 ++ List.range' (k + 1) (limit + 1 - (k + 1)) 1 := by
    have happ := List.range'_append_1 2 (k + 1 - 2) (limit + 1 - (k + 1))
    rw [show 2 + (k + 1 - 2) = k + 1 from by omega] at happ
    rw [show limit + 1 - (k + 1) + (k + 1 - 2) = limit + 1 - 2 from by omega] at happ
    exact happ.symm
  have hPk := sequential_counters c t k bs 2 hbs ScanState.zero
  have hO := sequential_counters c t limit bs 2 hbs ScanState.zero
  have hRes := sequential_counters c t limit bs (k + 1) hbs
    ⟨(validate_primality_test c t k bs none).true_positives,
      (validate_primality_test c t k bs none).false_positives,
      (validate_primality_test c t k bs none).false_negatives, [], []⟩
  have e1tp : (validate_primality_test c t k bs none).true_positives
      = ((List.range' 2 (k + 1 - 2) 1).map (tpDelta c t)).sum := by
    rw [validate_none_eq, mkResult_tp, hPk.1]; simp [ScanState.zero]
  have e1fp : (validate_primality_test c t k bs none).false_positives
      = ((List.range' 2 (k + 1 - 2) 1).map (fpDelta c t)).sum := by
    rw [validate_none_eq, mkResult_fp, hPk.2.1]; simp [ScanState.zero]
  have e1fn : (validate_primality_test c t k bs none).false_negatives
      = ((List.range' 2 (k + 1 - 2) 1).map (fnDelta c t)).sum := by
    rw [validate_none_eq, mkResult_fn, hPk.2.2]; simp [ScanState.zero]
  have e2tp : (validate_primality_test c t limit bs none).true_positives
      = ((List.range' 2 (limit + 1 - 2) 1).map (tpDelta c t)).sum := by
    rw [validate_none_eq, mkResult_tp, hO.1]; simp [ScanState.zero]
  have e2fp : (validate_primality_test c t limit bs none).false_positives
      = ((List.range' 2 (limit + 1 - 2) 1).map (fpDelta c t)).sum := by
    rw [validate_none_eq, mkResult_fp, hO.2.1]; simp [ScanState.zero]
  have e2fn : (validate_primality_test c t limit bs none).false_negatives
      = ((List.range' 2 (limit + 1 - 2) 1).map (fnDelta c t)).sum := by
    rw [validate_none_eq, mkResult_fn, hO.2.2]; simp [ScanState.zero]
  refine ⟨?_, ?_, ?_⟩
  · rw [validate_some_eq, mkResult_tp, hRes.1]
    dsimp only
    rw [e1tp, e2tp, hsplit, List.map_append, List.sum_append]
  · rw [validate_some_eq, mkResult_fp, hRes.2.1]
    dsimp only
    rw [e1fp, e2fp, hsplit, List.map_append, List.sum_append]
  · rw [validate_some_eq, mkResult_fn, hRes.2.2]
    dsimp only
    rw [e1fn, e2fn, hsplit, List.map_append, List.sum_append]

theorem C4_resume_idempotent_witness :
    (1 ≤ 3 ∧ 2 ≤ 4 ∧ 4 < 10) ∧
      ((validate_primality_test (fun n => decide (n % 2 = 1))
          ({2, 3, 5, 7} : Finset Nat) 10 3
          (some ⟨4, (validate_primality_test (fun n => decide (n % 2 = 1))
              ({2, 3, 5, 7} : Finset Nat) 4 3 none).true_positives,
            (validate_primality_test (fun n => decide (n % 2 = 1))
              ({2, 3, 5, 7} : Finset Nat) 4 3 none).false_positives,
            (validate_primality_test (fun n => decide (n % 2 = 1))
              ({2, 3, 5, 7} : Finset Nat) 4 3 none).false_negatives,
            "ts"⟩)).true_positives
        = (validate_primality_test (fun n => decide (n % 2 = 1))
            ({2, 3, 5, 7} : Finset Nat) 10 3 none).true_positives
      ∧ (validate_primality_test (fun n => decide (n % 2 = 1))
          ({2, 3, 5, 7} : Finset Nat) 10 3
          (some ⟨4, (validate_primality_test (fun n => decide (n % 2 = 1))
              ({2, 3, 5, 7} : Finset Nat) 4 3 none).true_positives,
            (validate_primality_test (fun n => decide (n % 2 = 1))
              ({2, 3, 5, 7} : Finset Nat) 4 3 none).false_positives,
            (validate_primality_test (fun n => decide (n % 2 = 1))
              ({2, 3, 5, 7} : Finset Nat) 4 3 none).false_negatives,
            "ts"⟩)).false_positives
        = (validate_primality_test (fun n => decide (n % 2 = 1))
            ({2, 3, 5, 7} : Finset Nat) 10 3 none).false_positives
      ∧ (validate_primality_test (fun n => decide (n % 2 = 1))
          ({2, 3, 5, 7} : Finset Nat) 10 3
          (some ⟨4, (validate_primality_test (fun n => decide (n % 2 = 1))
              ({2, 3, 5, 7} : Finset Nat) 4 3 none).true_positives,
            (validate_primality_test (fun n => decide (n % 2 = 1))
              ({2, 3, 5, 7} : Finset Nat) 4 3 none).false_positives,
            (validate_primality_test (fun n => decide (n % 2 = 1))
              ({2, 3, 5, 7} : Finset Nat) 4 3 none).false_negatives,
            "ts"⟩)).false_negatives
        = (validate_primality_test (fun n => decide (n % 2 = 1))
            ({2, 3, 5, 7} : Finset Nat) 10 3 none).false_negatives) :=
  ⟨by decide, C4_resume_idempotent _ _ 10 3 4 "ts" (by decide) (by decide) (by decide)⟩

/-- C5: saving a checkpoint for a limit and loading the same limit returns
exactly the saved record, and a second save for the same limit replaces
the first. -/
theorem C5_checkpoint_roundtrip (store : CheckpointStore)
    (cd cd1 cd2 : CheckpointData) (limit : Nat) :
    load_checkpoint (save_checkpoint store cd limit) limit = some cd
    ∧ load_checkpoint
        (save_checkpoint (save_checkpoint store cd1 limit) cd2 limit) limit
      = some cd2 := by
  constructor <;> simp [load_checkpoint, save_checkpoint]

/-- C6: at `limit = 0` and `limit = 1` the standard and segmented sieves
return the empty set, but the bit sieve still contains 2 (the
unconditional `{2}` seed in the source), contradicting its documented
contract of returning primes up to the limit. -/
theorem C6_bit_sieve_nonempty_below_two :
    generate_known_primes_bit_sieve 1 2 = true
    ∧ generate_known_primes_bit_sieve 0 2 = true
    ∧ (∀ n, generate_known_primes_standard 1 n = false)
    ∧ (∀ n, generate_known_primes_standard 0 n = false)
    ∧ (∀ n, generate_known_primes_segmented 1 10000000 n = false)
    ∧ (∀ n, generate_known_primes_segmented 0 10000000 n = false) := by
  refine ⟨rfl, rfl, ?_, ?_, ?_, ?_⟩
  · intro n
    cases h : generate_known_primes_standard 1 n with
    | false => rfl
    | true =>
      obtain ⟨hle, hp⟩ := (generate_known_primes_standard_iff 1 n).mp h
      exact absurd hp.two_le (by omega)
  · intro n
    cases h : generate_known_primes_standard 0 n with
    | false => rfl
    | true =>
      obtain ⟨hle, hp⟩ := (generate_known_primes_standard_iff 0 n).mp h
      exact absurd hp.two_le (by omega)
  · intro n
    cases h : generate_known_primes_segmented 1 10000000 n with
    | false => rfl
    | true =>
      obtain ⟨hle, hp⟩ :=
        (generate_known_primes_segmented_iff 1 10000000 n (by omega)).mp h
      exact absurd hp.two_le (by omega)
  · intro n
    cases h : generate_known_primes_segmented 0 10000000 n with
    | false => rfl
    | true =>
      obtain ⟨hle, hp⟩ :=
        (generate_known_primes_segmented_iff 0 10000000 n (by omega)).mp h
      exact absurd hp.two_le (by omega)

/-- C7: in every completed result of the sequential and distributed
validation paths, the derived metrics equal the specification formulas
and are 0 whenever the corresponding denominator is 0. -/
theorem C7_metrics_correct (c : Nat → Bool) (t : Finset Nat)
    (limit bs np : Nat) (ckpt : Option CheckpointData) :
    MetricsSpec (validate_primality_test c t limit bs ckpt)
    ∧ MetricsSpec (validate_primality_test_distributed c t limit bs np) := by
  constructor
  · cases ckpt with
    | none => exact mkResult_metrics limit t _
    | some cd => exact mkResult_metrics limit t _
  · exact mkResult_metrics limit t _

/-- C8 counterexample: the batch scan at the invalid range
`start = 5, end = 3` is not rejected; it returns a normal zero-counter
result record. -/
theorem C8_no_rejection :
    validate_primality_test_batch (fun _ => true) (∅ : Finset Nat) 5 3
      = ScanState.zero := rfl

/-- C8 amended: an invalid range is not explicitly rejected; instead the
scan loop is empty: a batch with `end < start` returns zero counters
untouched by the classifier, and a sequential validation with
`limit < 2` (the behaviour a negative Python limit reduces to when the
prime set is supplied) produces zero counters. -/
theorem C8_invalid_range_empty_scan (c : Nat → Bool) (t : Finset Nat)
    (s e limit bs : Nat) (hse : e < s) (hlim : limit < 2) (hbs : 1 ≤ bs) :
    validate_primality_test_batch c t s e = ScanState.zero
    ∧ (validate_primality_test c t limit bs none).true_positives = 0
    ∧ (validate_primality_test c t limit bs none).false_positives = 0
    ∧ (validate_primality_test c t limit bs none).false_negatives = 0 := by
  refine ⟨batch_empty c t s e hse, ?_, ?_, ?_⟩
  · rw [validate_small c t limit bs hbs hlim]; rfl
  · rw [validate_small c t limit bs hbs hlim]; rfl
  · rw [validate_small c t limit bs hbs hlim]; rfl

theorem C8_invalid_range_empty_scan_witness :
    (3 < 5 ∧ 1 < 2 ∧ 1 ≤ 7) ∧
      (validate_primality_test_batch (fun n => decide (n % 2 = 1))
          ({2, 3} : Finset Nat) 5 3 = ScanState.zero
        ∧ (validate_primality_test (fun n => decide (n % 2 = 1))
            ({2, 3} : Finset Nat) 1 7 none).true_positives = 0
        ∧ (validate_primality_test (fun n => decide (n % 2 = 1))
            ({2, 3} : Finset Nat) 1 7 none).false_positives = 0
        ∧ (validate_primality_test (fun n => decide (n % 2 = 1))
            ({2, 3} : Finset Nat) 1 7 none).false_negatives = 0) :=
  ⟨by decide, C8_invalid_range_empty_scan _ _ 5 3 1 7 (by decide) (by decide)
    (by decide)⟩

/-- C9: the in-repo classifier `is_prime` decides mathematical
primality, and with any consistent memoization cache the cached call
returns the same value and preserves consistency, so repeated calls with
the same `n` agree regardless of the cache state reached. -/
theorem C9_classifier_correct :
    (∀ n, is_prime n = true ↔ Nat.Prime n)
    ∧ (∀ (cache : List (Nat × Bool)) (n : Nat), CacheConsistent cache →
        (is_prime_cached cache n).1 = is_prime n
          ∧ CacheConsistent (is_prime_cached cache n).2) :=
  ⟨is_prime_iff, fun cache n h => is_prime_cached_spec cache n h⟩

theorem C9_classifier_correct_witness :
    (is_prime 97 = true ↔ Nat.Prime 97)
    ∧ ((is_prime_cached [] 9).1 = is_prime 9
        ∧ CacheConsistent (is_prime_cached [] 9).2) :=
  ⟨C9_classifier_correct.1 97,
    C9_classifier_correct.2 [] 9 (fun e he => absurd he (List.not_mem_nil e))⟩

/-- C10: `load_known_primes_from_file` returns the empty set for a
missing file, and otherwise returns exactly the integers of the
parseable lines, skipping the rest. -/
theorem C10_load_known_primes (lines : List String) (n : Int) :
    load_known_primes_from_file none = (∅ : Finset Int)
    ∧ (n ∈ load_known_primes_from_file (some lines) ↔
        ∃ l ∈ lines, parseIntLine l = some n) := by
  refine ⟨rfl, ?_⟩
  show n ∈ lines.foldl _ ∅ ↔ _
  rw [load_fold_mem]
  simp

end UFRF
